import Mathlib

/-!
# Verification of the Recipe_Finder search core

A shallow embedding of the search-orchestration core of `src/Recipe_Finder.c`:
the query interpreter (quote detection, phrase extraction, tokenization with
stop-word filtering), the match-ranking logic of `show_results`, the
deduplicating `add_link` accumulator, the Saveur parser's fallback logic, the
growable download buffer (`memory_write_callback` / `download_html`), and the
terminal-outcome dispatch of `search_complete_cb`.

Strings are modeled as lists of bytes (`List Nat`), matching the C code's
byte-wise treatment of its (UTF-8) NUL-terminated strings.  ASCII string
literals are injected with `str2bytes`.
-/

/-- Bytes of an ASCII Lean string literal (each `Char` taken as its code
point; callers only apply this to ASCII literals, where this agrees with the
C byte string). -/
def str2bytes (s : String) : List Nat := s.data.map Char.toNat

/-- `tolower` on one byte, as applied by `g_ascii_strdown`: only ASCII
`A`-`Z` (0x41-0x5A) are shifted; every other byte is untouched. -/
def lowerByte (b : Nat) : Nat := if 65 ≤ b ∧ b ≤ 90 then b + 32 else b

/-- `g_ascii_strdown`: byte-wise ASCII lowercasing of a whole string. -/
def asciiLower (s : List Nat) : List Nat := s.map lowerByte

theorem lowerByte_idem (b : Nat) : lowerByte (lowerByte b) = lowerByte b := by
  unfold lowerByte
  split
  · rename_i h
    rw [if_neg (by omega)]
  · rfl

theorem asciiLower_idem (s : List Nat) : asciiLower (asciiLower s) = asciiLower s := by
  unfold asciiLower
  rw [List.map_map]
  exact List.map_congr_left (fun b _ => lowerByte_idem b)

/-- Split a byte string at every occurrence of the byte `b` (the raw split;
`strtok_r` additionally discards the empty pieces, which the tokenizer's
filter below accounts for). -/
def splitOnByte (b : Nat) : List Nat → List (List Nat)
  | [] => [[]]
  | x :: xs =>
    let r := splitOnByte b xs
    if x = b then [] :: r
    else
      match r with
      | [] => [[x]]
      | t :: ts => (x :: t) :: ts

theorem splitOnByte_ne_nil (b : Nat) (l : List Nat) : splitOnByte b l ≠ [] := by
  induction l with
  | nil => simp [splitOnByte]
  | cons x xs ih =>
    simp only [splitOnByte]
    split
    · simp
    · split
      · simp
      · simp

theorem not_mem_of_mem_splitOnByte (b : Nat) (l : List Nat) :
    ∀ t ∈ splitOnByte b l, b ∉ t := by
  induction l with
  | nil => intro t ht; simp [splitOnByte] at ht; simp [ht]
  | cons x xs ih =>
    intro t ht
    simp only [splitOnByte] at ht
    by_cases hx : x = b
    · simp [hx] at ht
      rcases ht with h | h
      · simp [h]
      · exact ih t h
    · simp [hx] at ht
      rcases h : splitOnByte b xs with _ | ⟨t0, ts⟩
      · exact absurd h (splitOnByte_ne_nil b xs)
      · rw [h] at ht
        simp at ht
        rcases ht with h1 | h1
        · subst h1
          intro hmem
          rcases List.mem_cons.mp hmem with h2 | h2
          · exact hx h2.symm
          · exact ih t0 (by simp [h]) h2
        · exact ih t (by simp [h, h1])

theorem mem_of_mem_splitOnByte (b : Nat) (l : List Nat) :
    ∀ t ∈ splitOnByte b l, ∀ a ∈ t, a ∈ l := by
  induction l with
  | nil => intro t ht; simp [splitOnByte] at ht; simp [ht]
  | cons x xs ih =>
    intro t ht a ha
    simp only [splitOnByte] at ht
    by_cases hx : x = b
    · simp [hx] at ht
      rcases ht with h | h
      · simp [h] at ha
      · exact List.mem_cons_of_mem x (ih t h a ha)
    · simp [hx] at ht
      rcases h : splitOnByte b xs with _ | ⟨t0, ts⟩
      · exact absurd h (splitOnByte_ne_nil b xs)
      · rw [h] at ht
        simp at ht
        rcases ht with h1 | h1
        · subst h1
          rcases List.mem_cons.mp ha with h2 | h2
          · simp [h2]
          · exact List.mem_cons_of_mem x (ih t0 (by simp [h]) a h2)
        · exact List.mem_cons_of_mem x (ih t (by simp [h, h1]) a ha)

theorem splitOnByte_of_not_mem {b : Nat} {l : List Nat} (h : b ∉ l) :
    splitOnByte b l = [l] := by
  induction l with
  | nil => rfl
  | cons x xs ih =>
    have hx : x ≠ b := fun hc => h (by simp [hc])
    have hxs : b ∉ xs := fun hc => h (List.mem_cons_of_mem x hc)
    simp only [splitOnByte, if_neg hx, ih hxs]

theorem splitOnByte_append_cons {b : Nat} {l : List Nat} (rest : List Nat)
    (h : b ∉ l) :
    splitOnByte b (l ++ b :: rest) = l :: splitOnByte b rest := by
  induction l with
  | nil => simp [splitOnByte]
  | cons x xs ih =>
    have hx : x ≠ b := fun hc => h (by simp [hc])
    have hxs : b ∉ xs := fun hc => h (List.mem_cons_of_mem x hc)
    simp only [List.cons_append, splitOnByte, if_neg hx]
    rw [show xs.append (b :: rest) = xs ++ b :: rest from rfl, ih hxs]

/-- The fixed stop-word table `stop_words[]` of the C source. -/
def stopWords : List (List Nat) :=
  [str2bytes "a", str2bytes "an", str2bytes "the", str2bytes "and",
   str2bytes "or", str2bytes "with", str2bytes "of", str2bytes "in",
   str2bytes "on", str2bytes "at", str2bytes "to", str2bytes "for",
   str2bytes "by"]

/-- `is_stop_word`: case-insensitive comparison against the stop-word table
(`g_ascii_strcasecmp` lowercases both sides; the table is lowercase). -/
def isStopWord (w : List Nat) : Bool := stopWords.contains (asciiLower w)

/-- `tokenize_and_filter_stop_words`: ASCII-lowercase the phrase, split it on
spaces (`strtok_r` yields exactly the nonempty pieces), and drop stop words. -/
def tokenizeAndFilterStopWords (phrase : List Nat) : List (List Nat) :=
  (splitOnByte 32 (asciiLower phrase)).filter
    (fun t => !t.isEmpty && !isStopWord t)

/-- The GString joining that `show_results` performs: append a separating
space only when the accumulator is already nonempty. -/
def gJoinSpace (ls : List (List Nat)) : List Nat :=
  ls.foldl (fun acc s => if acc = [] then acc ++ s else acc ++ 32 :: s) []

theorem gJoinSpace_foldl_ne_nil (ls : List (List Nat)) (acc : List Nat)
    (hacc : acc ≠ []) :
    ls.foldl (fun acc s => if acc = [] then acc ++ s else acc ++ 32 :: s) acc
      = ls.foldl (fun acc s => acc ++ 32 :: s) acc := by
  induction ls generalizing acc with
  | nil => rfl
  | cons t ts ih =>
    simp only [List.foldl_cons, if_neg hacc]
    exact ih (acc ++ 32 :: t) (by simp)

theorem foldl_append_sep (ts : List (List Nat)) (acc : List Nat) :
    ts.foldl (fun acc s => acc ++ 32 :: s) acc
      = acc ++ (ts.map (fun s => 32 :: s)).flatten := by
  induction ts generalizing acc with
  | nil => simp
  | cons t ts ih => simp [ih]

/-- On a nonempty token list whose head is nonempty, the GString join is the
head followed by space-prefixed copies of the remaining tokens. -/
theorem gJoinSpace_cons (t : List Nat) (ts : List (List Nat)) (ht : t ≠ []) :
    gJoinSpace (t :: ts) = t ++ (ts.map (fun s => 32 :: s)).flatten := by
  unfold gJoinSpace
  rw [List.foldl_cons, if_pos rfl, List.nil_append]
  rw [gJoinSpace_foldl_ne_nil ts t ht, foldl_append_sep]

theorem splitOnByte_gJoin (ts : List (List Nat))
    (hne : ∀ t ∈ ts, t ≠ []) (hsp : ∀ t ∈ ts, (32 : Nat) ∉ t) (h0 : ts ≠ []) :
    splitOnByte 32 (gJoinSpace ts) = ts := by
  induction ts with
  | nil => exact absurd rfl h0
  | cons t ts ih =>
    rw [gJoinSpace_cons t ts (hne t (by simp))]
    cases ts with
    | nil =>
      simp only [List.map_nil, List.flatten_nil, List.append_nil]
      exact splitOnByte_of_not_mem (hsp t (by simp))
    | cons t' ts' =>
      have h1 : (List.map (fun s => 32 :: s) (t' :: ts')).flatten
          = 32 :: gJoinSpace (t' :: ts') := by
        rw [gJoinSpace_cons t' ts' (hne t' (by simp))]
        simp
      rw [h1, splitOnByte_append_cons _ (hsp t (by simp))]
      rw [ih (fun x hx => hne x (by simp [hx]))
            (fun x hx => hsp x (by simp [hx])) (by simp)]

/-- Every token produced by `tokenize_and_filter_stop_words` is nonempty,
contains no space byte, is fixed by ASCII lowercasing, and is not a
stop word. -/
theorem tokenize_token_spec (x : List Nat) :
    ∀ t ∈ tokenizeAndFilterStopWords x,
      t ≠ [] ∧ (32 : Nat) ∉ t ∧ (∀ a ∈ t, lowerByte a = a) ∧ isStopWord t = false := by
  intro t ht
  unfold tokenizeAndFilterStopWords at ht
  rw [List.mem_filter] at ht
  obtain ⟨hmem, hp⟩ := ht
  rw [Bool.and_eq_true, Bool.not_eq_true', Bool.not_eq_true'] at hp
  refine ⟨by simpa using hp.1, not_mem_of_mem_splitOnByte 32 _ t hmem, ?_, hp.2⟩
  intro a ha
  have hax : a ∈ asciiLower x := mem_of_mem_splitOnByte 32 _ t hmem a ha
  unfold asciiLower at hax
  obtain ⟨b, _, hb⟩ := List.mem_map.mp hax
  rw [← hb]
  exact lowerByte_idem b

/-- Re-tokenizing the space-joined token list reproduces the token list:
`tokenize_and_filter_stop_words` is idempotent across `show_results`'s
join/re-tokenize round trip. -/
theorem tokenize_gJoin_tokenize (x : List Nat) :
    tokenizeAndFilterStopWords (gJoinSpace (tokenizeAndFilterStopWords x))
      = tokenizeAndFilterStopWords x := by
  rcases h0 : tokenizeAndFilterStopWords x with _ | ⟨t, ts⟩
  · rfl
  · have hspec := tokenize_token_spec x
    rw [h0] at hspec
    have hne : ∀ u ∈ t :: ts, u ≠ [] := fun u hu => (hspec u hu).1
    have hsp : ∀ u ∈ t :: ts, (32 : Nat) ∉ u := fun u hu => (hspec u hu).2.1
    have hlowfix : ∀ a ∈ gJoinSpace (t :: ts), lowerByte a = a := by
      intro a ha
      rw [gJoinSpace_cons t ts (hne t (by simp))] at ha
      rcases List.mem_append.mp ha with h | h
      · exact (hspec t (by simp)).2.2.1 a h
      · obtain ⟨s, hs, has⟩ := List.mem_flatten.mp h
        obtain ⟨u, hu, hus⟩ := List.mem_map.mp hs
        rw [← hus] at has
        rcases List.mem_cons.mp has with h2 | h2
        · rw [h2]; rfl
        · exact (hspec u (by simp [hu])).2.2.1 a h2
    have hlow : asciiLower (gJoinSpace (t :: ts)) = gJoinSpace (t :: ts) := by
      unfold asciiLower
      calc (gJoinSpace (t :: ts)).map lowerByte
          = (gJoinSpace (t :: ts)).map id := List.map_congr_left hlowfix
        _ = gJoinSpace (t :: ts) := List.map_id _
    unfold tokenizeAndFilterStopWords
    rw [hlow, splitOnByte_gJoin (t :: ts) hne hsp (by simp)]
    apply List.filter_eq_self.mpr
    intro u hu
    rw [Bool.and_eq_true, Bool.not_eq_true', Bool.not_eq_true']
    exact ⟨by simpa using hne u hu, (hspec u hu).2.2.2⟩

/-- The `QuoteStatus` enum of the C source
(`QUOTE_NONE` / `QUOTE_SINGLE` / `QUOTE_PAIR`). -/
inductive QuoteStatus where
  | none
  | single
  | pair
deriving DecidableEq, Repr

/-- `normalize_quotes_utf8`: replace each 3-byte UTF-8 curly-quote sequence
(E2 80 98/99 and E2 80 9C/9D) in place by an ASCII quote followed by two
spaces; every other byte is copied.  The C loop advances one byte at a time,
but after a replacement the next two bytes are spaces, which match no case,
so consuming all three bytes at once is equivalent; likewise, after a
non-matching E2 80 pair the 0x80 byte matches no case, so both bytes can be
emitted together. -/
def normalizeQuotesUtf8 : List Nat → List Nat
  | 0xE2 :: 0x80 :: c :: rest =>
    if c = 0x98 ∨ c = 0x99 then 39 :: 32 :: 32 :: normalizeQuotesUtf8 rest
    else if c = 0x9C ∨ c = 0x9D then 34 :: 32 :: 32 :: normalizeQuotesUtf8 rest
    else 0xE2 :: 0x80 :: normalizeQuotesUtf8 (c :: rest)
  | b :: rest => b :: normalizeQuotesUtf8 rest
  | [] => []

/-- `detect_quote_status`: count ASCII single (0x27) and double (0x22) quote
bytes in the raw query; an even nonzero count of either kind is
`QUOTE_PAIR`, any other nonzero count is `QUOTE_SINGLE`, else `QUOTE_NONE`. -/
def detectQuoteStatus (q : List Nat) : QuoteStatus :=
  let s := q.count 39
  let d := q.count 34
  if (0 < s ∧ s % 2 = 0) ∨ (0 < d ∧ d % 2 = 0) then .pair
  else if 0 < s ∨ 0 < d then .single
  else .none

/-- `g_ascii_isspace`: space, tab, newline, vertical tab, form feed,
carriage return. -/
def isSpaceByte (b : Nat) : Bool := b = 32 || b = 9 || b = 10 || b = 11 || b = 12 || b = 13

/-- `g_strstrip`: drop leading and trailing ASCII whitespace. -/
def gStrip (s : List Nat) : List Nat :=
  (s.dropWhile isSpaceByte).reverse.dropWhile isSpaceByte |>.reverse

/-- `strchr(start, quote)`: split at the first occurrence of byte `b`,
returning the part before it and the part after it, or `none` when `b` does
not occur. -/
def findClose (b : Nat) : List Nat → Option (List Nat × List Nat)
  | [] => none
  | x :: xs =>
    if x = b then some ([], xs)
    else (findClose b xs).map (fun pr => (x :: pr.1, pr.2))

theorem findClose_length {b : Nat} :
    ∀ {l phrase rest : List Nat}, findClose b l = some (phrase, rest) →
      rest.length < l.length := by
  intro l
  induction l with
  | nil => intro phrase rest h; simp [findClose] at h
  | cons x xs ih =>
    intro phrase rest h
    simp only [findClose] at h
    split at h
    · simp at h
      simp [← h.2]
    · rcases hx : findClose b xs with _ | ⟨p, r⟩
      · rw [hx] at h; simp at h
      · rw [hx] at h
        simp at h
        have := ih hx
        rw [← h.2]
        exact Nat.lt_succ_of_lt this

/-- The scanning loop of `extract_quoted_phrases`, written with an explicit
fuel argument (structural recursion on the fuel keeps the function
kernel-computable): on an ASCII quote byte, capture up to the matching close
quote as one phrase (kept only if the raw captured text is nonempty, then
trimmed and lowercased); an unmatched open quote aborts the scan.  Each step
strictly shortens the scanned list, so fuel `l.length` (supplied by
`extractLoop`) never runs out. -/
def extractLoopF : Nat → List Nat → List (List Nat)
  | 0, _ => []
  | _ + 1, [] => []
  | fuel + 1, b :: rest =>
    if b = 34 ∨ b = 39 then
      match findClose b rest with
      | Option.none => []
      | some (phrase, rest') =>
        if phrase.length > 0 then
          asciiLower (gStrip phrase) :: extractLoopF fuel rest'
        else extractLoopF fuel rest'
    else extractLoopF fuel rest

/-- The scanning loop of `extract_quoted_phrases`, with enough fuel for its
input. -/
def extractLoop (l : List Nat) : List (List Nat) := extractLoopF l.length l

/-- `extract_quoted_phrases`: normalize curly quotes, then scan for quoted
phrases. -/
def extractQuotedPhrases (q : List Nat) : List (List Nat) :=
  extractLoop (normalizeQuotesUtf8 q)

/-- One candidate entry of the result `GList`: `add_link` stores
`"title\x1ffull_url"`; since both halves are produced by `sanitize_string`
(which removes bytes below 0x20), the separator is unambiguous and the entry
is faithfully a (title, url) pair. -/
structure Entry where
  title : List Nat
  url : List Nat
deriving DecidableEq, Repr

/-- The `RecipeInfo` record filled per retained candidate in
`show_results`. -/
structure RecipeInfo where
  title : List Nat
  url : List Nat
  perfectMatch : Bool
  partialMatch : Bool
  matched : Nat
  total : Nat
deriving DecidableEq, Repr

/-- The quoted-phrase list computed at step 3 of `show_results` (only for a
`QUOTE_PAIR` search). -/
def quotedPhrasesOf (q : List Nat) (qs : QuoteStatus) : List (List Nat) :=
  if qs = .pair then extractQuotedPhrases q else []

/-- `partial_search_term` of `show_results`: the quoted phrases joined with
spaces, tokenized with stop words removed, and re-joined; `none` models the
C `NULL` (no phrases, or no token survived the stop-word filter). -/
def partialSearchTermOf (q : List Nat) (qs : QuoteStatus) : Option (List Nat) :=
  let phrases := quotedPhrasesOf q qs
  if qs = .pair ∧ phrases ≠ [] then
    let combined := gJoinSpace phrases
    let partialTokens := tokenizeAndFilterStopWords combined
    if partialTokens ≠ [] then some (gJoinSpace partialTokens) else Option.none
  else Option.none

/-- The decisive token set of a query: the stop-word-filtered tokens of the
joined quoted phrases. -/
def decisiveTokens (q : List Nat) : List (List Nat) :=
  tokenizeAndFilterStopWords (gJoinSpace (extractQuotedPhrases q))

/-- `strstr`-based count: how many of the tokens occur as substrings of the
(lowercased) title. -/
def matchedCount (tokens : List (List Nat)) (lowerTitle : List Nat) : Nat :=
  (tokens.filter (fun tok => decide (tok <:+: lowerTitle))).length

/-- The per-candidate body of the `show_results` loop: lowercase the title,
score it against the re-tokenized `partial_search_term` when the search is a
paired-quote search, and drop the candidate when the quote filter is active
and neither a perfect nor a partial match was found. -/
def classifyEntry (qs : QuoteStatus) (quotedPhrases : List (List Nat))
    (pst : Option (List Nat)) (e : Entry) : Option RecipeInfo :=
  let lowerTitle := asciiLower e.title
  let scored : Bool × Bool × Nat × Nat :=
    match qs, quotedPhrases, pst with
    | .pair, _ :: _, some s =>
      let tokens := tokenizeAndFilterStopWords s
      if tokens ≠ [] then
        let total := tokens.length
        let matched := matchedCount tokens lowerTitle
        (decide (matched = total), decide (matched ≠ total ∧ 0 < matched), matched, total)
      else (false, false, 0, 0)
    | _, _, _ => (false, false, 0, 0)
  if qs = .pair ∧ scored.1 = false ∧ scored.2.1 = false then Option.none
  else some ⟨e.title, e.url, scored.1, scored.2.1, scored.2.2.1, scored.2.2.2⟩

/-- `show_results`: compute the quoted-phrase data once, then keep exactly
the candidates that `classifyEntry` retains, in emission order. -/
def showResults (links : List Entry) (q : List Nat) (qs : QuoteStatus) :
    List RecipeInfo :=
  links.filterMap (classifyEntry qs (quotedPhrasesOf q qs) (partialSearchTermOf q qs))

theorem partialSearchTerm_some {q : List Nat} {s : List Nat}
    (h : partialSearchTermOf q .pair = some s) :
    tokenizeAndFilterStopWords s = decisiveTokens q ∧ decisiveTokens q ≠ [] := by
  by_cases hph : extractQuotedPhrases q = []
  · simp [partialSearchTermOf, quotedPhrasesOf, hph] at h
  · by_cases htk : tokenizeAndFilterStopWords (gJoinSpace (extractQuotedPhrases q)) = []
    · simp [partialSearchTermOf, quotedPhrasesOf, hph, htk] at h
    · have hs : s = gJoinSpace (tokenizeAndFilterStopWords (gJoinSpace (extractQuotedPhrases q))) := by
        simp [partialSearchTermOf, quotedPhrasesOf, hph, htk] at h
        exact h.symm
      rw [hs]
      unfold decisiveTokens
      exact ⟨tokenize_gJoin_tokenize _, htk⟩

theorem partialSearchTerm_none {q : List Nat}
    (h : partialSearchTermOf q .pair = Option.none) :
    decisiveTokens q = [] := by
  by_cases hph : extractQuotedPhrases q = []
  · unfold decisiveTokens
    rw [hph]
    rfl
  · by_cases htk : tokenizeAndFilterStopWords (gJoinSpace (extractQuotedPhrases q)) = []
    · exact htk
    · simp [partialSearchTermOf, quotedPhrasesOf, hph, htk] at h

theorem matchedCount_le (tokens : List (List Nat)) (t : List Nat) :
    matchedCount tokens t ≤ tokens.length :=
  List.length_filter_le _ _

/-- Helper: the full per-candidate classification equation of `show_results`
for a `QUOTE_PAIR` search, expressed against the decisive token set. -/
theorem classifyEntry_pair_eq (q : List Nat) (e : Entry) :
    classifyEntry .pair (quotedPhrasesOf q .pair) (partialSearchTermOf q .pair) e
      = (let m := matchedCount (decisiveTokens q) (asciiLower e.title)
         let t := (decisiveTokens q).length
         if m = t ∧ 0 < t then some ⟨e.title, e.url, true, false, m, t⟩
         else if 0 < m ∧ m < t then some ⟨e.title, e.url, false, true, m, t⟩
         else Option.none) := by
  rcases hpst : partialSearchTermOf q .pair with _ | s
  · have hD : decisiveTokens q = [] := partialSearchTerm_none hpst
    cases hph : quotedPhrasesOf q .pair with
    | nil => simp [classifyEntry, hD, matchedCount]
    | cons p ps => simp [classifyEntry, hD, matchedCount]
  · have hD := partialSearchTerm_some hpst
    have hph : quotedPhrasesOf q .pair ≠ [] := by
      intro hc
      rw [partialSearchTermOf, hc] at hpst
      simp at hpst
    cases hph2 : quotedPhrasesOf q .pair with
    | nil => exact absurd hph2 hph
    | cons p ps =>
      simp only [classifyEntry, hD.1]
      rw [if_pos hD.2]
      have hmle := matchedCount_le (decisiveTokens q) (asciiLower e.title)
      have ht : 0 < (decisiveTokens q).length := List.length_pos.mpr hD.2
      set m := matchedCount (decisiveTokens q) (asciiLower e.title) with hm
      set t := (decisiveTokens q).length with htl
      by_cases hmt : m = t
      · simp [hmt, ht]
      · by_cases hm0 : 0 < m
        · have hlt : m < t := lt_of_le_of_ne hmle hmt
          simp [hmt, hm0, hlt]
        · simp [hmt, hm0]

/-- C1: in a `QUOTE_PAIR` search, each candidate is scored against the
decisive token set (the stop-word-filtered tokens of the joined quoted
phrases) by counting which tokens are substrings of the lowercased title; it
is retained as a perfect match exactly when `matched = total` with
`total > 0`, retained as a partial match exactly when `0 < matched < total`,
and excluded otherwise; hence every retained result has `matched ≥ 1`. -/
theorem claim_C1_pair_match_classification (q : List Nat) (links : List Entry)
    (e : Entry) :
    (classifyEntry .pair (quotedPhrasesOf q .pair) (partialSearchTermOf q .pair) e
      = (let m := matchedCount (decisiveTokens q) (asciiLower e.title)
         let t := (decisiveTokens q).length
         if m = t ∧ 0 < t then some ⟨e.title, e.url, true, false, m, t⟩
         else if 0 < m ∧ m < t then some ⟨e.title, e.url, false, true, m, t⟩
         else Option.none))
    ∧ (∀ r ∈ showResults links q .pair,
         1 ≤ r.matched ∧ r.matched ≤ r.total ∧
         r.matched = matchedCount (decisiveTokens q) (asciiLower r.title) ∧
         r.total = (decisiveTokens q).length ∧
         (r.perfectMatch = true ↔ r.matched = r.total) ∧
         (r.partialMatch = true ↔ r.matched < r.total)) := by
  refine ⟨classifyEntry_pair_eq q e, ?_⟩
  intro r hr
  obtain ⟨e', he', hce⟩ := List.mem_filterMap.mp hr
  rw [classifyEntry_pair_eq q e'] at hce
  simp only at hce
  set m := matchedCount (decisiveTokens q) (asciiLower e'.title) with hm
  set t := (decisiveTokens q).length with htl
  by_cases h1 : m = t ∧ 0 < t
  · rw [if_pos h1] at hce
    obtain ⟨rfl⟩ := Option.some.inj hce
    simp [h1.1, h1.2, Nat.le_of_eq h1.1]
    omega
  · rw [if_neg h1] at hce
    by_cases h2 : 0 < m ∧ m < t
    · rw [if_pos h2] at hce
      obtain ⟨rfl⟩ := Option.some.inj hce
      simp [h2.1, h2.2]
      omega
    · rw [if_neg h2] at hce
      exact absurd hce (by simp)

/-- C8: `detect_quote_status` is `QUOTE_PAIR` iff the query contains an
even, nonzero number of ASCII single quotes or an even, nonzero number of
ASCII double quotes; it is `QUOTE_SINGLE` iff quotes are present but no kind
is evenly paired; and it is `QUOTE_NONE` iff no quote byte occurs at all. -/
theorem claim_C8_quote_state_detection (q : List Nat) :
    (detectQuoteStatus q = .pair ↔
       (0 < q.count 39 ∧ q.count 39 % 2 = 0) ∨ (0 < q.count 34 ∧ q.count 34 % 2 = 0)) ∧
    (detectQuoteStatus q = .single ↔
       (¬ ((0 < q.count 39 ∧ q.count 39 % 2 = 0) ∨ (0 < q.count 34 ∧ q.count 34 % 2 = 0))
         ∧ (0 < q.count 39 ∨ 0 < q.count 34))) ∧
    (detectQuoteStatus q = .none ↔ (q.count 39 = 0 ∧ q.count 34 = 0)) := by
  by_cases hp : (0 < q.count 39 ∧ q.count 39 % 2 = 0) ∨ (0 < q.count 34 ∧ q.count 34 % 2 = 0)
  · have hd : detectQuoteStatus q = .pair := by
      unfold detectQuoteStatus
      rw [if_pos hp]
    have hnz : ¬ (q.count 39 = 0 ∧ q.count 34 = 0) := by
      rcases hp with ⟨h1, _⟩ | ⟨h1, _⟩ <;> omega
    rw [hd]
    exact ⟨⟨fun _ => hp, fun _ => rfl⟩,
           ⟨fun h => QuoteStatus.noConfusion h, fun h => absurd hp h.1⟩,
           ⟨fun h => QuoteStatus.noConfusion h, fun h => absurd h hnz⟩⟩
  · by_cases hs : 0 < q.count 39 ∨ 0 < q.count 34
    · have hd : detectQuoteStatus q = .single := by
        unfold detectQuoteStatus
        rw [if_neg hp, if_pos hs]
      have hnz : ¬ (q.count 39 = 0 ∧ q.count 34 = 0) := by
        rcases hs with h1 | h1 <;> omega
      rw [hd]
      exact ⟨⟨fun h => QuoteStatus.noConfusion h, fun h => absurd h hp⟩,
             ⟨fun _ => ⟨hp, hs⟩, fun _ => rfl⟩,
             ⟨fun h => QuoteStatus.noConfusion h, fun h => absurd h hnz⟩⟩
    · have hd : detectQuoteStatus q = .none := by
        unfold detectQuoteStatus
        rw [if_neg hp, if_neg hs]
      have hz : q.count 39 = 0 ∧ q.count 34 = 0 := by omega
      rw [hd]
      exact ⟨⟨fun h => QuoteStatus.noConfusion h, fun h => absurd h hp⟩,
             ⟨fun h => QuoteStatus.noConfusion h, fun h => absurd h.2 hs⟩,
             ⟨fun _ => hz, fun _ => rfl⟩⟩

/-- Counterexample to C9: the query consisting only of the curly-paired
quotes U+201C x U+201D (UTF-8 bytes E2 80 9C, `x`, E2 80 9D) is classified
`QUOTE_NONE`, while its ASCII equivalent `"x"` is classified `QUOTE_PAIR`:
`detect_quote_status` counts raw bytes and never calls
`normalize_quotes_utf8`. -/
theorem claim_C9_counterexample :
    detectQuoteStatus [0xE2, 0x80, 0x9C, 120, 0xE2, 0x80, 0x9D] = QuoteStatus.none
    ∧ detectQuoteStatus (str2bytes "\"x\"") = QuoteStatus.pair
    ∧ QuoteStatus.none ≠ QuoteStatus.pair := by
  refine ⟨by decide, by decide, by decide⟩

/-- C9 (amended): curly-quote normalization happens only inside phrase
extraction (`extract_quoted_phrases` first applies `normalize_quotes_utf8`),
not before quote-state counting: `detect_quote_status` depends only on the
raw ASCII quote bytes of the query, so the all-curly-paired query above is
classified `QUOTE_NONE` even though its quoted phrase is still
extractable. -/
theorem claim_C9_amended (q : List Nat) :
    (extractQuotedPhrases q = extractLoop (normalizeQuotesUtf8 q))
    ∧ (detectQuoteStatus q
        = detectQuoteStatus (q.filter (fun b => b = 39 ∨ b = 34)))
    ∧ detectQuoteStatus [0xE2, 0x80, 0x9C, 120, 0xE2, 0x80, 0x9D] = QuoteStatus.none
    ∧ extractQuotedPhrases [0xE2, 0x80, 0x9C, 120, 0xE2, 0x80, 0x9D] = [[120]] := by
  refine ⟨rfl, ?_, by decide, by decide⟩
  unfold detectQuoteStatus
  rw [List.count_filter (by simp), List.count_filter (by simp)]

/-- The terminal UI outcome chosen by `search_complete_cb`: show the (already
match-filtered) result list, or show a single fallback site link, or show a
failure status message. -/
inductive Outcome where
  | results (rs : List RecipeInfo)
  | fallbackLink (url : List Nat)
  | failure (msg : List Nat)
deriving DecidableEq, Repr

/-- Whether an outcome is the single generic fallback site link. -/
def isFallbackOutcome : Outcome → Bool
  | .fallbackLink _ => true
  | _ => false

/-- The branch structure of `search_complete_cb`: on `success` with a
non-NULL result list, display `show_results` output (the quote status was
stored by `initialize_on_search` as `detect_quote_status` of the query); else
if a URL was built and the list is NULL, display one fallback link; else
display the status message (defaulting to "Search failed."). -/
def searchCompleteOutcome (success : Bool) (results : List Entry)
    (url : Option (List Nat)) (statusMessage : Option (List Nat))
    (query : List Nat) : Outcome :=
  if success = true ∧ results ≠ [] then
    .results (showResults results query (detectQuoteStatus query))
  else
    match url, results with
    | some u, [] => .fallbackLink u
    | _, _ => .failure (statusMessage.getD (str2bytes "Search failed."))

/-- Counterexample to C2: a search whose raw extraction produced one
candidate ("Pizza Dough") under the paired-quote query `"chili"`; match
filtering removes the only candidate, yet the outcome is a success display
of an empty list, not the fallback link. -/
theorem claim_C2_counterexample :
    ([Entry.mk (str2bytes "Pizza Dough") (str2bytes "https://x/pizza")].length = 1)
    ∧ showResults [Entry.mk (str2bytes "Pizza Dough") (str2bytes "https://x/pizza")]
        (str2bytes "\"chili\"") (detectQuoteStatus (str2bytes "\"chili\"")) = []
    ∧ searchCompleteOutcome true
        [Entry.mk (str2bytes "Pizza Dough") (str2bytes "https://x/pizza")]
        (some (str2bytes "https://x/search?q=chili")) Option.none
        (str2bytes "\"chili\"")
      = Outcome.results []
    ∧ isFallbackOutcome (searchCompleteOutcome true
        [Entry.mk (str2bytes "Pizza Dough") (str2bytes "https://x/pizza")]
        (some (str2bytes "https://x/search?q=chili")) Option.none
        (str2bytes "\"chili\"")) = false := by
  refine ⟨by decide, by decide, by decide, by decide⟩

/-- C2 (amended): the fallback outcome occurs exactly when the extracted
candidate list is empty (NULL) and a search URL was built; when extraction
produced at least one candidate the outcome is always the success display of
the `show_results` output, which may be an empty list when paired-quote
filtering removes every candidate — the consumer can be shown an empty
success. -/
theorem claim_C2_amended (success : Bool) (results : List Entry)
    (url : Option (List Nat)) (statusMessage : Option (List Nat))
    (query : List Nat) :
    (isFallbackOutcome (searchCompleteOutcome success results url statusMessage query) = true
       ↔ results = [] ∧ url.isSome = true)
    ∧ (success = true → results ≠ [] →
        searchCompleteOutcome success results url statusMessage query
          = .results (showResults results query (detectQuoteStatus query))) := by
  constructor
  · by_cases hr : results = []
    · subst hr
      rcases url with _ | u
      · simp [searchCompleteOutcome, isFallbackOutcome]
      · simp [searchCompleteOutcome, isFallbackOutcome]
    · by_cases hs : success = true
      · simp [searchCompleteOutcome, hs, hr, isFallbackOutcome]
      · rcases url with _ | u
        · simp [searchCompleteOutcome, hs, hr, isFallbackOutcome]
        · simp [searchCompleteOutcome, hs, hr, isFallbackOutcome]
  · intro hs hr
    simp [searchCompleteOutcome, hs, hr]

/-- Witness for the amended C2 at a concrete input: extraction produced one
candidate, so the outcome is the (here empty) success display and not the
fallback. -/
theorem claim_C2_amended_witness :
    isFallbackOutcome (searchCompleteOutcome true
        [Entry.mk (str2bytes "Pizza Dough") (str2bytes "https://x/pizza")]
        (some (str2bytes "https://x/search?q=chili")) Option.none
        (str2bytes "\"chili\"")) ≠ true
    ∧ searchCompleteOutcome true
        [Entry.mk (str2bytes "Pizza Dough") (str2bytes "https://x/pizza")]
        (some (str2bytes "https://x/search?q=chili")) Option.none
        (str2bytes "\"chili\"")
      = .results (showResults [Entry.mk (str2bytes "Pizza Dough") (str2bytes "https://x/pizza")]
          (str2bytes "\"chili\"") (detectQuoteStatus (str2bytes "\"chili\""))) := by
  constructor
  · intro hc
    have h := (claim_C2_amended true
        [Entry.mk (str2bytes "Pizza Dough") (str2bytes "https://x/pizza")]
        (some (str2bytes "https://x/search?q=chili")) Option.none
        (str2bytes "\"chili\"")).1.mp hc
    exact absurd h.1 (by decide)
  · exact (claim_C2_amended true
        [Entry.mk (str2bytes "Pizza Dough") (str2bytes "https://x/pizza")]
        (some (str2bytes "https://x/search?q=chili")) Option.none
        (str2bytes "\"chili\"")).2 rfl (by decide)

/-- Witness for C1 at a concrete input: the paired-quote query
`"chili pepper"` against the candidate "Chili Crisp" (decisive tokens
{chili, pepper}, one of which matches) yields a retained partial match with
`matched = 1 ≥ 1`. -/
theorem claim_C1_pair_match_classification_witness :
    1 ≤ (RecipeInfo.mk (str2bytes "Chili Crisp") (str2bytes "https://x/c")
          false true 1 2).matched
    ∧ (RecipeInfo.mk (str2bytes "Chili Crisp") (str2bytes "https://x/c")
          false true 1 2).matched
        ≤ (RecipeInfo.mk (str2bytes "Chili Crisp") (str2bytes "https://x/c")
          false true 1 2).total := by
  have h := (claim_C1_pair_match_classification (str2bytes "\"chili pepper\"")
      [Entry.mk (str2bytes "Chili Crisp") (str2bytes "https://x/c")]
      (Entry.mk (str2bytes "Chili Crisp") (str2bytes "https://x/c"))).2
      (RecipeInfo.mk (str2bytes "Chili Crisp") (str2bytes "https://x/c") false true 1 2)
      (by decide)
  exact ⟨h.1, h.2.1⟩

/-- C10: in a `QUOTE_PAIR` search whose decisive token set is empty (all
quoted phrases empty or consisting only of stop words), every deduplicated
candidate is excluded by `show_results`, and the terminal outcome is the
success display of an empty list — no fallback link is produced. -/
theorem claim_C10_empty_decisive_tokens (q : List Nat) (links : List Entry)
    (url : Option (List Nat)) (statusMessage : Option (List Nat))
    (hq : detectQuoteStatus q = .pair)
    (hD : decisiveTokens q = [])
    (hl : links ≠ []) :
    showResults links q .pair = []
    ∧ searchCompleteOutcome true links url statusMessage q = Outcome.results []
    ∧ isFallbackOutcome (searchCompleteOutcome true links url statusMessage q) = false := by
  have hshow : showResults links q .pair = [] := by
    apply List.filterMap_eq_nil_iff.mpr
    intro e he
    rw [classifyEntry_pair_eq q e]
    simp only [hD, matchedCount, List.filter_nil, List.length_nil]
    norm_num
  have houtcome : searchCompleteOutcome true links url statusMessage q
      = Outcome.results [] := by
    unfold searchCompleteOutcome
    rw [if_pos ⟨rfl, hl⟩, hq, hshow]
  exact ⟨hshow, houtcome, by rw [houtcome]; rfl⟩

/-- Witness for C10 at a concrete input: the query `"the a"` has paired
quotes but its only phrase consists of stop words, so the candidate list is
fully filtered out and the outcome is an empty success display. -/
theorem claim_C10_empty_decisive_tokens_witness :
    showResults [Entry.mk (str2bytes "Pizza Dough") (str2bytes "https://x/p")]
        (str2bytes "\"the a\"") .pair = []
    ∧ searchCompleteOutcome true
        [Entry.mk (str2bytes "Pizza Dough") (str2bytes "https://x/p")]
        (some (str2bytes "https://x/s")) Option.none (str2bytes "\"the a\"")
      = Outcome.results [] :=
  have h := claim_C10_empty_decisive_tokens (str2bytes "\"the a\"")
      [Entry.mk (str2bytes "Pizza Dough") (str2bytes "https://x/p")]
      (some (str2bytes "https://x/s")) Option.none
      (by decide) (by decide) (by decide)
  ⟨h.1, h.2.1⟩

/-- `MAX_RESULTS`: the per-search cap on added recipe links. -/
def MAX_RESULTS : Nat := 50

/-- `sanitize_string`: keep only bytes ≥ 0x20 and ≠ 0x7F. -/
def sanitizeString (s : List Nat) : List Nat :=
  s.filter (fun b => decide (32 ≤ b) && decide (b ≠ 127))

/-- C `isalpha` restricted to ASCII letters (the code always feeds
`unsigned char`; bytes outside A-Z/a-z are not letters in the C locale). -/
def isAlphaByte (b : Nat) : Bool :=
  (decide (65 ≤ b) && decide (b ≤ 90)) || (decide (97 ≤ b) && decide (b ≤ 122))

/-- C `toupper` on an ASCII byte. -/
def upperByte (b : Nat) : Nat := if 97 ≤ b ∧ b ≤ 122 then b - 32 else b

/-- The loop body of `capitalize_each_word`: uppercase a letter that starts
a word, lowercase everything else, and restart word mode after a space (the
check is on the byte already written, and `tolower(' ') = ' '`). -/
def capWordGo : Bool → List Nat → List Nat
  | _, [] => []
  | capNext, b :: rest =>
    let bw := if capNext ∧ isAlphaByte b then upperByte b else lowerByte b
    let capNext' := if capNext ∧ isAlphaByte b then false else capNext
    bw :: capWordGo (if bw = 32 then true else capNext') rest

/-- `capitalize_each_word`. -/
def capitalizeEachWord (s : List Nat) : List Nat := capWordGo true s

/-- The per-search accumulator state threaded through `add_link`: the result
`GList` (`out`), the dedup `GHashTable` of full URLs (`linkSet`), and the
global counter `recipe_result_total`. -/
structure SearchState where
  out : List Entry
  linkSet : List (List Nat)
  total : Nat
deriving DecidableEq, Repr

/-- The state at the start of every search: empty list, fresh hash table,
counter reset to zero (`search_thread_func` line `recipe_result_total = 0`). -/
def initSearchState : SearchState := ⟨[], [], 0⟩

/-- The full URL `add_link` builds: the base concatenated with the sanitized
href (`g_strdup_printf("%s%s", base_url, safe_href)`). -/
def fullUrlOf (baseUrl href : List Nat) : List Nat := baseUrl ++ sanitizeString href

/-- `add_link`: skip when the per-search cap is reached; otherwise truncate
the title to the 511-byte `temp_title` buffer, capitalize and sanitize it,
build the full URL, and append the entry only when the URL is not already in
the dedup set (in which case the URL is added to the set and the counter
incremented). -/
def add_link (st : SearchState) (title baseUrl href : List Nat) : SearchState :=
  if MAX_RESULTS ≤ st.total then st
  else
    let safeTitle := sanitizeString (capitalizeEachWord (title.take 511))
    let fullUrl := fullUrlOf baseUrl href
    if fullUrl ∈ st.linkSet then st
    else ⟨st.out ++ [⟨safeTitle, fullUrl⟩], fullUrl :: st.linkSet, st.total + 1⟩

/-- One requested link addition (the arguments a parser passes to
`add_link`). -/
structure AddReq where
  title : List Nat
  baseUrl : List Nat
  href : List Nat
deriving DecidableEq, Repr

/-- A sequence of `add_link` calls. -/
def runAdds (st : SearchState) (reqs : List AddReq) : SearchState :=
  reqs.foldl (fun s r => add_link s r.title r.baseUrl r.href) st

/-- The invariant `add_link` maintains: every emitted URL is registered in
the dedup set, emitted URLs are pairwise distinct, and the counter equals
the number of emitted entries, capped at `MAX_RESULTS`. -/
def AddInvariant (st : SearchState) : Prop :=
  (∀ e ∈ st.out, e.url ∈ st.linkSet)
  ∧ (st.out.map Entry.url).Nodup
  ∧ st.total = st.out.length
  ∧ st.total ≤ MAX_RESULTS
  ∧ st.linkSet.length = st.out.length

theorem addInvariant_init : AddInvariant initSearchState := by
  refine ⟨by simp [initSearchState], by simp [initSearchState], rfl, by norm_num [initSearchState, MAX_RESULTS], rfl⟩

theorem addInvariant_add_link (st : SearchState) (title baseUrl href : List Nat)
    (h : AddInvariant st) : AddInvariant (add_link st title baseUrl href) := by
  obtain ⟨h1, h2, h3, h4, h5⟩ := h
  unfold add_link
  by_cases hcap : MAX_RESULTS ≤ st.total
  · rw [if_pos hcap]
    exact ⟨h1, h2, h3, h4, h5⟩
  · rw [if_neg hcap]
    by_cases hdup : fullUrlOf baseUrl href ∈ st.linkSet
    · rw [if_pos hdup]
      exact ⟨h1, h2, h3, h4, h5⟩
    · rw [if_neg hdup]
      refine ⟨?_, ?_, ?_, ?_, ?_⟩
      · intro e he
        rcases List.mem_append.mp he with hm | hm
        · exact List.mem_cons_of_mem _ (h1 e hm)
        · simp at hm
          simp [hm]
      · rw [List.map_append]
        simp only [List.map_cons, List.map_nil]
        rw [List.nodup_append]
        refine ⟨h2, by simp, ?_⟩
        intro u hu
        simp only [List.mem_singleton]
        intro hc
        obtain ⟨e, he, heu⟩ := List.mem_map.mp hu
        exact hdup (hc ▸ heu ▸ h1 e he)
      · simp [h3]
      · simp only [List.length_append, List.length_cons, List.length_nil]
        omega
      · simp [h5]

theorem addInvariant_runAdds (st : SearchState) (reqs : List AddReq)
    (h : AddInvariant st) : AddInvariant (runAdds st reqs) := by
  induction reqs generalizing st with
  | nil => exact h
  | cons r rs ih => exact ih _ (addInvariant_add_link st r.title r.baseUrl r.href h)

/-- C4: across one search, the emitted full URLs are pairwise distinct, and
an `add_link` whose full URL is already in the per-search dedup set leaves
the whole state (result list, dedup set, counter) unchanged — deduplication
is idempotent. -/
theorem claim_C4_dedup (reqs : List AddReq) (st : SearchState)
    (title baseUrl href : List Nat)
    (hmem : fullUrlOf baseUrl href ∈ st.linkSet) :
    ((runAdds initSearchState reqs).out.map Entry.url).Nodup
    ∧ add_link st title baseUrl href = st := by
  constructor
  · exact (addInvariant_runAdds initSearchState reqs addInvariant_init).2.1
  · unfold add_link
    by_cases hcap : MAX_RESULTS ≤ st.total
    · rw [if_pos hcap]
    · rw [if_neg hcap, if_pos hmem]

/-- Witness for C4 at a concrete input: re-adding the URL already present in
the dedup set changes nothing. -/
theorem claim_C4_dedup_witness :
    add_link (SearchState.mk [Entry.mk (str2bytes "Chili") (str2bytes "https://x/c")]
        [str2bytes "https://x/c"] 1)
      (str2bytes "Chili Again") [] (str2bytes "https://x/c")
      = SearchState.mk [Entry.mk (str2bytes "Chili") (str2bytes "https://x/c")]
        [str2bytes "https://x/c"] 1 :=
  (claim_C4_dedup []
    (SearchState.mk [Entry.mk (str2bytes "Chili") (str2bytes "https://x/c")]
      [str2bytes "https://x/c"] 1)
    (str2bytes "Chili Again") [] (str2bytes "https://x/c") (by decide)).2

/-- `search_thread_func` resets the global `recipe_result_total` to zero and
hands a fresh result list and dedup table to the selected parser, so the
state a search starts from does not depend on the counter value left by the
previous search. -/
def searchThreadRun (previousTotal : Nat) (reqs : List AddReq) : SearchState :=
  runAdds { out := [], linkSet := [], total := 0 } reqs

/-- C5: the per-search candidate counter and emitted-candidate count never
exceed 50, the counter reset makes the search outcome independent of any
previous search's counter, and ranking (`show_results`) never returns more
results than the deduplicated candidate list it was given. -/
theorem claim_C5_caps_and_reset (previousTotal : Nat) (reqs : List AddReq)
    (q : List Nat) (qs : QuoteStatus) :
    (searchThreadRun previousTotal reqs).total ≤ 50
    ∧ (searchThreadRun previousTotal reqs).out.length ≤ 50
    ∧ searchThreadRun previousTotal reqs = searchThreadRun 0 reqs
    ∧ (showResults (searchThreadRun previousTotal reqs).out q qs).length
        ≤ (searchThreadRun previousTotal reqs).out.length := by
  have hinv : AddInvariant (searchThreadRun previousTotal reqs) :=
    addInvariant_runAdds _ reqs addInvariant_init
  refine ⟨hinv.2.2.2.1, ?_, rfl, List.length_filterMap_le _ _⟩
  have h3 := hinv.2.2.1
  have h4 := hinv.2.2.2.1
  unfold MAX_RESULTS at h4
  omega

/-- RFC 3986 unreserved bytes as accepted by `url_encode`: ASCII
alphanumerics and `-`, `.`, `_`, `~`. -/
def isUnreservedByte (b : Nat) : Bool :=
  (decide (48 ≤ b) && decide (b ≤ 57)) || (decide (65 ≤ b) && decide (b ≤ 90))
    || (decide (97 ≤ b) && decide (b ≤ 122))
    || decide (b = 45) || decide (b = 46) || decide (b = 95) || decide (b = 126)

/-- One uppercase hexadecimal digit (for `%02X`). -/
def hexDigitChar (n : Nat) : Nat := if n < 10 then 48 + n else 55 + n

/-- `url_encode` (the NYTimes/Saveur helper): copy unreserved bytes, encode
every other byte as `%XX`. -/
def urlEncode (s : List Nat) : List Nat :=
  (s.map (fun b =>
    if isUnreservedByte b then [b]
    else [37, hexDigitChar (b / 16), hexDigitChar (b % 16)])).flatten

/-- The effective search term of `parse_saveur`: the raw query, or
`"chicken"` when the query is empty. -/
def saveurTerm (searchTerm : List Nat) : List Nat :=
  if searchTerm.isEmpty then str2bytes "chicken" else searchTerm

/-- The fallback link text `"Search Saveur.com for %s recipes"`, truncated to
the 256-byte `link_text` buffer. -/
def saveurFallbackTitle (term : List Nat) : List Nat :=
  (str2bytes "Search Saveur.com for " ++ term ++ str2bytes " recipes").take 255

/-- The fallback URL `"https://www.saveur.com/search/%s"` built from the
URL-encoded raw term, truncated to the 1024-byte `fallback_url` buffer. -/
def saveurFallbackUrl (term : List Nat) : List Nat :=
  (str2bytes "https://www.saveur.com/search/" ++ urlEncode term).take 1023

/-- The single fallback entry `parse_saveur` appends through `add_link`
(base URL is the empty string, so the full URL is the sanitized fallback
URL). -/
def saveurFallbackEntry (term : List Nat) : Entry :=
  ⟨sanitizeString (capitalizeEachWord ((saveurFallbackTitle term).take 511)),
   fullUrlOf [] (saveurFallbackUrl term)⟩

/-- `parse_saveur` after its own HTTP fetch: on fetch failure the function
returns with the state untouched (and no fallback); on success the link
extraction performs its `add_link` calls (`reqs`), and if the result list is
still empty exactly one deterministic fallback link is added. -/
def parseSaveur (fetched : Option (List AddReq)) (searchTerm : List Nat)
    (st : SearchState) : SearchState :=
  let term := saveurTerm searchTerm
  match fetched with
  | Option.none => st
  | some reqs =>
    let st' := runAdds st reqs
    if st'.out = [] then
      add_link st' (saveurFallbackTitle term) [] (saveurFallbackUrl term)
    else st'

/-- C3: whenever `parse_saveur` obtains site content but extraction yields
zero real candidates, exactly one fallback candidate — deterministically
constructed from the query and the Saveur base URL — is appended to the
(previously empty) result list. -/
theorem claim_C3_saveur_fallback (q : List Nat) (reqs : List AddReq)
    (h : (runAdds initSearchState reqs).out = []) :
    (parseSaveur (some reqs) q initSearchState).out
      = [saveurFallbackEntry (saveurTerm q)]
    ∧ (parseSaveur (some reqs) q initSearchState).out.length = 1 := by
  have hinv : AddInvariant (runAdds initSearchState reqs) :=
    addInvariant_runAdds _ reqs addInvariant_init
  have htotal : (runAdds initSearchState reqs).total = 0 := by
    rw [hinv.2.2.1, h]
    rfl
  have hset : (runAdds initSearchState reqs).linkSet = [] := by
    have := hinv.2.2.2.2
    rw [h] at this
    simp at this
    exact this
  have hout : (parseSaveur (some reqs) q initSearchState).out
      = [saveurFallbackEntry (saveurTerm q)] := by
    unfold parseSaveur
    simp only [if_pos h]
    unfold add_link
    rw [if_neg (by rw [htotal]; norm_num [MAX_RESULTS]), if_neg (by rw [hset]; simp)]
    simp [h, saveurFallbackEntry]
  exact ⟨hout, by rw [hout]; rfl⟩

/-- Witness for C3 at a concrete input: an extraction that produced no
candidates for the query `chili` ends with exactly the one fallback link. -/
theorem claim_C3_saveur_fallback_witness :
    (parseSaveur (some []) (str2bytes "chili") initSearchState).out
      = [saveurFallbackEntry (saveurTerm (str2bytes "chili"))]
    ∧ (parseSaveur (some []) (str2bytes "chili") initSearchState).out.length = 1 :=
  claim_C3_saveur_fallback (str2bytes "chili") [] (by decide)

/-- `SIZE_MAX` on the 64-bit targets the code builds for. -/
def SIZE_MAX64 : Nat := 2 ^ 64 - 1

/-- `MAX_DOWNLOAD_SIZE`: the 32 MiB hard cap. -/
def MAX_DOWNLOAD_SIZE : Nat := 32 * 1024 * 1024

/-- `DEFAULT_MEMORY_PARSER_SIZE` (128 KiB). -/
def DEFAULT_MEMORY_PARSER_SIZE : Nat := 128 * 1024

/-- `LOW_CAPACITY_PARSER_RAM_KB` (16 KiB, systems with < 128 MB RAM). -/
def LOW_CAPACITY_PARSER_RAM_KB : Nat := 16 * 1024

/-- `MID_CAPACITY_PARSER_RAM_KB` (64 KiB, systems with 128-512 MB RAM). -/
def MID_CAPACITY_PARSER_RAM_KB : Nat := 64 * 1024

/-- `HIGH_CAPACITY_PARSER_RAM_KB` (256 KiB, systems with > 512 MB RAM). -/
def HIGH_CAPACITY_PARSER_RAM_KB : Nat := 256 * 1024

/-- `detect_initial_capacity`, as a function of the detected total system
RAM in bytes (0 models detection failure). -/
def detectInitialCapacity (totalRam : Nat) : Nat :=
  if totalRam = 0 then DEFAULT_MEMORY_PARSER_SIZE
  else if totalRam < 128 * 2 ^ 20 then LOW_CAPACITY_PARSER_RAM_KB
  else if totalRam < 512 * 2 ^ 20 then MID_CAPACITY_PARSER_RAM_KB
  else HIGH_CAPACITY_PARSER_RAM_KB

/-- The `MemoryBlock` used as a curl write sink: `alloc` models whether
`data` is non-NULL, `buf` the allocated region (so the C `capacity` field is
`buf.length`; realloc-fresh bytes are modeled as the junk byte 170), and
`size` the number of valid bytes. -/
structure MemoryBlock where
  alloc : Bool
  buf : List Nat
  size : Nat
deriving DecidableEq, Repr

/-- The C `capacity` field: the length of the allocated region. -/
def MemoryBlock.capacity (m : MemoryBlock) : Nat := m.buf.length

/-- The chunk struct `download_html` starts each fetch with:
`{.data = NULL, .size = 0, .capacity = 0}`. -/
def initialChunk : MemoryBlock := ⟨false, [], 0⟩

/-- The accumulated content: the valid bytes before the terminator. -/
def contentOf (m : MemoryBlock) : List Nat := m.buf.take m.size

/-- The capacity-doubling loop of `memory_write_callback`
(`while (new_capacity < required_size) { if > MAX/2 clamp; else *= 2 }`),
written on explicit fuel; the callers pass fuel `required`, which always
suffices for a positive starting capacity. -/
def growCapacity : Nat → Nat → Nat → Nat
  | 0, cap, _ => cap
  | fuel + 1, cap, required =>
    if cap < required then
      if MAX_DOWNLOAD_SIZE / 2 < cap then MAX_DOWNLOAD_SIZE
      else growCapacity fuel (2 * cap) required
    else cap

theorem growCapacity_ge_req (fuel cap required : Nat)
    (hreq : required ≤ MAX_DOWNLOAD_SIZE) (hcap : 1 ≤ cap)
    (hfuel : required ≤ fuel + cap) :
    required ≤ growCapacity fuel cap required := by
  induction fuel generalizing cap with
  | zero =>
    unfold growCapacity
    omega
  | succ fuel ih =>
    unfold growCapacity
    by_cases h1 : cap < required
    · rw [if_pos h1]
      by_cases h2 : MAX_DOWNLOAD_SIZE / 2 < cap
      · rw [if_pos h2]
        exact hreq
      · rw [if_neg h2]
        exact ih (2 * cap) (by omega) (by omega)
    · rw [if_neg h1]
      omega

theorem growCapacity_ge_start (fuel cap required : Nat)
    (hcap : cap ≤ MAX_DOWNLOAD_SIZE) :
    cap ≤ growCapacity fuel cap required := by
  induction fuel generalizing cap with
  | zero => exact Nat.le_refl _
  | succ fuel ih =>
    unfold growCapacity
    by_cases h1 : cap < required
    · rw [if_pos h1]
      by_cases h2 : MAX_DOWNLOAD_SIZE / 2 < cap
      · rw [if_pos h2]
        exact hcap
      · rw [if_neg h2]
        have hmax : MAX_DOWNLOAD_SIZE = 2 * (MAX_DOWNLOAD_SIZE / 2) := by
          norm_num [MAX_DOWNLOAD_SIZE]
        have h2cap : 2 * cap ≤ MAX_DOWNLOAD_SIZE := by omega
        exact le_trans (by omega) (ih (2 * cap) h2cap)
    · rw [if_neg h1]

theorem growCapacity_le_max (fuel cap required : Nat)
    (hcap : cap ≤ MAX_DOWNLOAD_SIZE) :
    growCapacity fuel cap required ≤ MAX_DOWNLOAD_SIZE := by
  induction fuel generalizing cap with
  | zero => exact hcap
  | succ fuel ih =>
    unfold growCapacity
    by_cases h1 : cap < required
    · rw [if_pos h1]
      by_cases h2 : MAX_DOWNLOAD_SIZE / 2 < cap
      · rw [if_pos h2]
      · rw [if_neg h2]
        have : MAX_DOWNLOAD_SIZE = 2 * (MAX_DOWNLOAD_SIZE / 2) := by
          norm_num [MAX_DOWNLOAD_SIZE]
        exact ih (2 * cap) (by omega)
    · rw [if_neg h1]
      exact hcap

theorem growCapacity_shape (fuel cap required : Nat) :
    (∃ k, growCapacity fuel cap required = cap * 2 ^ k)
      ∨ growCapacity fuel cap required = MAX_DOWNLOAD_SIZE := by
  induction fuel generalizing cap with
  | zero => exact Or.inl ⟨0, by simp [growCapacity]⟩
  | succ fuel ih =>
    unfold growCapacity
    by_cases h1 : cap < required
    · rw [if_pos h1]
      by_cases h2 : MAX_DOWNLOAD_SIZE / 2 < cap
      · rw [if_pos h2]
        exact Or.inr rfl
      · rw [if_neg h2]
        rcases ih (2 * cap) with ⟨k, hk⟩ | hmax
        · exact Or.inl ⟨k + 1, by rw [hk]; ring⟩
        · exact Or.inr hmax
    · rw [if_neg h1]
      exact Or.inl ⟨0, by simp⟩

/-- `memcpy` of the chunk at offset `size` plus the explicit NUL terminator
(`m->data[m->size] = '\0'`), returning `realsize`. -/
def writeChunk (m : MemoryBlock) (chunk : List Nat) : Nat × MemoryBlock :=
  (chunk.length,
   ⟨true,
    m.buf.take m.size ++ chunk ++ [0] ++ m.buf.drop (m.size + chunk.length + 1),
    m.size + chunk.length⟩)

/-- `memory_write_callback`: reject (0 bytes) on an inconsistent block, on
address-space overflow of `size + realsize + 1`, on exceeding the 32 MiB
cap, on insufficient free memory for the grown capacity, or on `realloc`
failure (`allocOk = false`); otherwise grow if needed (doubling from the
current capacity, or from `DEFAULT_MEMORY_PARSER_SIZE` when the capacity is
still zero, clamped to the cap) and append the chunk. -/
def startCapOf (m : MemoryBlock) : Nat :=
  if 0 < m.capacity then m.capacity else DEFAULT_MEMORY_PARSER_SIZE

/-- The grown capacity the callback would allocate for
`required = size + realsize + 1`. -/
def newCapOf (m : MemoryBlock) (required : Nat) : Nat :=
  growCapacity required (startCapOf m) required

def memoryWrite (m : MemoryBlock) (chunk : List Nat) (freeMem : Nat)
    (allocOk : Bool) : Nat × MemoryBlock :=
  if m.alloc = true ∧ m.capacity = 0 then (0, m)
  else if SIZE_MAX64 - m.size - 1 < chunk.length then (0, m)
  else if MAX_DOWNLOAD_SIZE < m.size + chunk.length + 1 then (0, m)
  else if m.capacity < m.size + chunk.length + 1 then
    if startCapOf m = 0 then (0, m)
    else if freeMem < newCapOf m (m.size + chunk.length + 1) then (0, m)
    else if allocOk = false then (0, m)
    else writeChunk
      ⟨true, m.buf ++ List.replicate (newCapOf m (m.size + chunk.length + 1) - m.capacity) 170,
       m.size⟩ chunk
  else writeChunk m chunk

/-- The state invariant of a fetch buffer: either the valid region plus its
terminator fit the allocation, or the block is still the fresh NULL block. -/
def MemInv (m : MemoryBlock) : Prop :=
  m.size + 1 ≤ m.buf.length ∨ (m.buf = [] ∧ m.size = 0)

instance (m : MemoryBlock) : Decidable (MemInv m) := by
  unfold MemInv
  infer_instance

theorem memInv_initial : MemInv initialChunk := Or.inr ⟨rfl, rfl⟩

theorem writeChunk_spec (m : MemoryBlock) (chunk : List Nat)
    (hpre : m.size + chunk.length + 1 ≤ m.buf.length) (hsz : m.size ≤ m.buf.length) :
    (writeChunk m chunk).1 = chunk.length
    ∧ (writeChunk m chunk).2.size = m.size + chunk.length
    ∧ (writeChunk m chunk).2.buf.length = m.buf.length
    ∧ contentOf (writeChunk m chunk).2 = contentOf m ++ chunk
    ∧ (writeChunk m chunk).2.buf.get? (writeChunk m chunk).2.size = some 0
    ∧ MemInv (writeChunk m chunk).2 := by
  have htake : (m.buf.take m.size).length = m.size := by
    rw [List.length_take]
    omega
  have hlenbuf : (writeChunk m chunk).2.buf.length = m.buf.length := by
    simp only [writeChunk, List.length_append, List.length_cons, List.length_nil,
      List.length_drop]
    omega
  refine ⟨rfl, rfl, hlenbuf, ?_, ?_, ?_⟩
  · unfold writeChunk contentOf
    simp only
    rw [List.append_assoc, List.append_assoc]
    rw [List.take_append_eq_append_take, htake]
    have e1 : List.take (m.size + chunk.length) (List.take m.size m.buf)
        = List.take m.size m.buf := by
      rw [List.take_take]
      congr 1
      omega
    have e2 : m.size + chunk.length - m.size = chunk.length := by omega
    rw [e1, e2]
    congr 1
    rw [List.take_append_eq_append_take]
    simp
  · unfold writeChunk
    simp only
    have hassoc : m.buf.take m.size ++ chunk ++ [0] ++ m.buf.drop (m.size + chunk.length + 1)
        = (m.buf.take m.size ++ chunk) ++ ((0 : Nat) :: m.buf.drop (m.size + chunk.length + 1)) := by
      simp [List.append_assoc]
    rw [hassoc]
    have hlen2 : (m.buf.take m.size ++ chunk).length = m.size + chunk.length := by
      rw [List.length_append, htake]
    rw [List.get?_append_right (by omega)]
    rw [hlen2]
    simp
  · left
    rw [hlenbuf]
    exact hpre

theorem startCapOf_ne_zero (m : MemoryBlock) : startCapOf m ≠ 0 := by
  unfold startCapOf
  by_cases hc : 0 < m.capacity
  · rw [if_pos hc]
    omega
  · rw [if_neg hc]
    norm_num [DEFAULT_MEMORY_PARSER_SIZE]

theorem memoryWrite_reject_overflow (m : MemoryBlock) (chunk : List Nat)
    (freeMem : Nat) (allocOk : Bool)
    (h : SIZE_MAX64 - m.size - 1 < chunk.length) :
    memoryWrite m chunk freeMem allocOk = (0, m) := by
  unfold memoryWrite
  by_cases h0 : m.alloc = true ∧ m.capacity = 0
  · rw [if_pos h0]
  · rw [if_neg h0, if_pos h]

theorem memoryWrite_reject_cap (m : MemoryBlock) (chunk : List Nat)
    (freeMem : Nat) (allocOk : Bool)
    (h : MAX_DOWNLOAD_SIZE < m.size + chunk.length + 1) :
    memoryWrite m chunk freeMem allocOk = (0, m) := by
  unfold memoryWrite
  by_cases h0 : m.alloc = true ∧ m.capacity = 0
  · rw [if_pos h0]
  · rw [if_neg h0]
    by_cases h1 : SIZE_MAX64 - m.size - 1 < chunk.length
    · rw [if_pos h1]
    · rw [if_neg h1, if_pos h]

theorem memoryWrite_reject_freeMem (m : MemoryBlock) (chunk : List Nat)
    (freeMem : Nat) (allocOk : Bool)
    (hcap : m.size + chunk.length + 1 ≤ MAX_DOWNLOAD_SIZE)
    (hgrow : m.capacity < m.size + chunk.length + 1)
    (hfm : freeMem < newCapOf m (m.size + chunk.length + 1)) :
    memoryWrite m chunk freeMem allocOk = (0, m) := by
  unfold memoryWrite
  by_cases h0 : m.alloc = true ∧ m.capacity = 0
  · rw [if_pos h0]
  · rw [if_neg h0]
    have h1 : ¬ (SIZE_MAX64 - m.size - 1 < chunk.length) := by
      unfold SIZE_MAX64 MAX_DOWNLOAD_SIZE at *
      omega
    rw [if_neg h1, if_neg (by omega), if_pos hgrow, if_neg (startCapOf_ne_zero m),
      if_pos hfm]

/-- An accepted (full-length) write appends the chunk after the previous
content, NUL-terminates the buffer right after the new valid region, and
preserves the buffer invariant. -/
theorem memoryWrite_accepted (m : MemoryBlock) (chunk : List Nat)
    (freeMem : Nat) (allocOk : Bool) (hinv : MemInv m)
    (hacc : (memoryWrite m chunk freeMem allocOk).1 = chunk.length) :
    contentOf (memoryWrite m chunk freeMem allocOk).2 = contentOf m ++ chunk
    ∧ MemInv (memoryWrite m chunk freeMem allocOk).2
    ∧ (0 < chunk.length →
        (memoryWrite m chunk freeMem allocOk).2.buf.get?
            (memoryWrite m chunk freeMem allocOk).2.size = some 0
        ∧ (memoryWrite m chunk freeMem allocOk).2.size = m.size + chunk.length) := by
  have hszle : m.size ≤ m.buf.length := by
    rcases hinv with h | ⟨h1, h2⟩
    · omega
    · rw [h1, h2]
      simp
  by_cases h0 : m.alloc = true ∧ m.capacity = 0
  · rw [memoryWrite] at hacc ⊢
    rw [if_pos h0] at hacc ⊢
    simp at hacc
    have hc0 : chunk = [] := List.length_eq_zero.mp hacc.symm
    subst hc0
    simp [hinv]
  · by_cases h1 : SIZE_MAX64 - m.size - 1 < chunk.length
    · rw [memoryWrite_reject_overflow m chunk freeMem allocOk h1] at hacc ⊢
      simp at hacc
      have hc0 : chunk = [] := List.length_eq_zero.mp hacc.symm
      subst hc0
      simp [hinv]
    · by_cases h2 : MAX_DOWNLOAD_SIZE < m.size + chunk.length + 1
      · rw [memoryWrite_reject_cap m chunk freeMem allocOk h2] at hacc ⊢
        simp at hacc
        have hc0 : chunk = [] := List.length_eq_zero.mp hacc.symm
        subst hc0
        simp [hinv]
      · by_cases h3 : m.capacity < m.size + chunk.length + 1
        · -- growth branch
          by_cases h4 : freeMem < newCapOf m (m.size + chunk.length + 1)
          · rw [memoryWrite_reject_freeMem m chunk freeMem allocOk (by omega) h3 h4] at hacc ⊢
            simp at hacc
            have hc0 : chunk = [] := List.length_eq_zero.mp hacc.symm
            subst hc0
            simp [hinv]
          · by_cases h5 : allocOk = false
            · rw [memoryWrite] at hacc ⊢
              rw [if_neg h0, if_neg h1, if_neg h2, if_pos h3,
                if_neg (startCapOf_ne_zero m), if_neg h4, if_pos h5] at hacc ⊢
              simp at hacc
              have hc0 : chunk = [] := List.length_eq_zero.mp hacc.symm
              subst hc0
              simp [hinv]
            · -- accepted after growing
              rw [memoryWrite] at hacc ⊢
              rw [if_neg h0, if_neg h1, if_neg h2, if_pos h3,
                if_neg (startCapOf_ne_zero m), if_neg h4, if_neg h5] at hacc ⊢
              have hnewge : m.size + chunk.length + 1
                  ≤ newCapOf m (m.size + chunk.length + 1) := by
                unfold newCapOf
                apply growCapacity_ge_req
                · omega
                · have := startCapOf_ne_zero m
                  omega
                · omega
              have hgrownlen :
                  (m.buf ++ List.replicate
                    (newCapOf m (m.size + chunk.length + 1) - m.capacity) 170).length
                  = m.capacity
                    + (newCapOf m (m.size + chunk.length + 1) - m.capacity) := by
                simp [MemoryBlock.capacity]
              have hpre : m.size + chunk.length + 1
                  ≤ (m.buf ++ List.replicate
                    (newCapOf m (m.size + chunk.length + 1) - m.capacity) 170).length := by
                rw [hgrownlen]
                unfold MemoryBlock.capacity at h3 ⊢
                omega
              have hszle2 : m.size
                  ≤ (m.buf ++ List.replicate
                    (newCapOf m (m.size + chunk.length + 1) - m.capacity) 170).length := by
                rw [hgrownlen]
                unfold MemoryBlock.capacity
                omega
              have hspec := writeChunk_spec
                ⟨true, m.buf ++ List.replicate
                  (newCapOf m (m.size + chunk.length + 1) - m.capacity) 170, m.size⟩
                chunk hpre hszle2
              have hcontent : contentOf
                  (⟨true, m.buf ++ List.replicate
                    (newCapOf m (m.size + chunk.length + 1) - m.capacity) 170, m.size⟩
                      : MemoryBlock)
                  = contentOf m := by
                unfold contentOf
                simp only
                rw [List.take_append_eq_append_take]
                rw [show m.size - m.buf.length = 0 from by omega]
                simp
              refine ⟨?_, hspec.2.2.2.2.2, fun _ => ⟨hspec.2.2.2.2.1, hspec.2.1⟩⟩
              rw [hspec.2.2.2.1, hcontent]
        · -- no growth needed
          rw [memoryWrite] at hacc ⊢
          rw [if_neg h0, if_neg h1, if_neg h2, if_neg h3] at hacc ⊢
          have hpre : m.size + chunk.length + 1 ≤ m.buf.length := by
            unfold MemoryBlock.capacity at h3
            omega
          have hspec := writeChunk_spec m chunk hpre hszle
          refine ⟨hspec.2.2.2.1, hspec.2.2.2.2.2, fun _ => ⟨hspec.2.2.2.2.1, hspec.2.1⟩⟩

/-- Modelled from the spec (libcurl's documented write-callback contract,
outside this repository's source): curl feeds the body chunk by chunk to
`memory_write_callback` and aborts the whole transfer with an error code as
soon as the callback accepts fewer bytes than offered. -/
def feedChunks (m : MemoryBlock) (freeMem : Nat) : List (List Nat) → Option MemoryBlock
  | [] => some m
  | c :: cs =>
    if (memoryWrite m c freeMem true).1 = c.length then
      feedChunks (memoryWrite m c freeMem true).2 freeMem cs
    else Option.none

/-- `download_html`: run the transfer into a fresh `{NULL, 0, 0}` block; on
any transfer error (including a short write) free the partial data and
return NULL, otherwise return the accumulated body. -/
def downloadHtml (freeMem : Nat) (chunks : List (List Nat)) : Option (List Nat) :=
  match feedChunks initialChunk freeMem chunks with
  | Option.none => Option.none
  | some m => some (contentOf m)

theorem feedChunks_content (cs : List (List Nat)) (m m' : MemoryBlock)
    (freeMem : Nat) (hinv : MemInv m)
    (h : feedChunks m freeMem cs = some m') :
    contentOf m' = contentOf m ++ cs.flatten ∧ MemInv m' := by
  induction cs generalizing m with
  | nil =>
    simp [feedChunks] at h
    subst h
    exact ⟨by simp, hinv⟩
  | cons c cs ih =>
    rw [feedChunks] at h
    by_cases hacc : (memoryWrite m c freeMem true).1 = c.length
    · rw [if_pos hacc] at h
      have hstep := memoryWrite_accepted m c freeMem true hinv hacc
      have := ih (memoryWrite m c freeMem true).2 hstep.2.1 h
      rw [this.1, hstep.1]
      exact ⟨by simp, this.2⟩
    · rw [if_neg hacc] at h
      exact absurd h (by simp)

theorem feedChunks_append (pre suf : List (List Nat)) (m : MemoryBlock)
    (freeMem : Nat) :
    feedChunks m freeMem (pre ++ suf)
      = match feedChunks m freeMem pre with
        | some m' => feedChunks m' freeMem suf
        | Option.none => Option.none := by
  induction pre generalizing m with
  | nil => simp [feedChunks]
  | cons c cs ih =>
    rw [List.cons_append, feedChunks, feedChunks]
    by_cases hacc : (memoryWrite m c freeMem true).1 = c.length
    · rw [if_pos hacc, if_pos hacc, ih]
    · rw [if_neg hacc, if_neg hacc]

/-- C6: the download buffer write rejects (returning 0 and leaving the block
untouched) whenever `size + chunk + 1` would overflow `size_t`, whenever it
would exceed the 32 MiB hard cap, and whenever growth is needed but free
memory is below the grown capacity; every accepted write NUL-terminates the
buffer right after the valid region; and a fetch returns the full
concatenated body or an error — a short write anywhere aborts the fetch with
the partial content discarded, never a truncated body. -/
theorem claim_C6_buffer_and_fetch_safety (m : MemoryBlock) (chunk : List Nat)
    (freeMem : Nat) (allocOk : Bool) (hinv : MemInv m) :
    ((SIZE_MAX64 - m.size - 1 < chunk.length →
        memoryWrite m chunk freeMem allocOk = (0, m))
      ∧ (MAX_DOWNLOAD_SIZE < m.size + chunk.length + 1 →
        memoryWrite m chunk freeMem allocOk = (0, m))
      ∧ (m.size + chunk.length + 1 ≤ MAX_DOWNLOAD_SIZE →
          m.capacity < m.size + chunk.length + 1 →
          freeMem < newCapOf m (m.size + chunk.length + 1) →
          memoryWrite m chunk freeMem allocOk = (0, m)))
    ∧ ((memoryWrite m chunk freeMem allocOk).1 = chunk.length → 0 < chunk.length →
        (memoryWrite m chunk freeMem allocOk).2.buf.get?
            (memoryWrite m chunk freeMem allocOk).2.size = some 0
        ∧ contentOf (memoryWrite m chunk freeMem allocOk).2 = contentOf m ++ chunk)
    ∧ (∀ fm chunks content, downloadHtml fm chunks = some content →
        content = chunks.flatten)
    ∧ (∀ fm (pre : List (List Nat)) c rest st,
        feedChunks initialChunk fm pre = some st →
        (memoryWrite st c fm true).1 ≠ c.length →
        downloadHtml fm (pre ++ c :: rest) = Option.none) := by
  refine ⟨⟨memoryWrite_reject_overflow m chunk freeMem allocOk,
          memoryWrite_reject_cap m chunk freeMem allocOk,
          fun h1 h2 h3 => memoryWrite_reject_freeMem m chunk freeMem allocOk h1 h2 h3⟩,
        ?_, ?_, ?_⟩
  · intro hacc hpos
    have hstep := memoryWrite_accepted m chunk freeMem allocOk hinv hacc
    exact ⟨(hstep.2.2 hpos).1, hstep.1⟩
  · intro fm chunks content h
    unfold downloadHtml at h
    rcases hfeed : feedChunks initialChunk fm chunks with _ | mk
    · rw [hfeed] at h
      exact absurd h (by simp)
    · rw [hfeed] at h
      simp at h
      have := feedChunks_content chunks initialChunk mk fm memInv_initial hfeed
      rw [← h, this.1]
      rfl
  · intro fm pre c rest st hpre hshort
    unfold downloadHtml
    rw [feedChunks_append pre (c :: rest) initialChunk fm, hpre]
    simp only [feedChunks, if_neg hshort]

/-- Witness for C6 at a concrete input: writing one byte into the fresh
fetch buffer with no free system memory is rejected with the block
unchanged. -/
theorem claim_C6_buffer_and_fetch_safety_witness :
    memoryWrite initialChunk [97] 0 true = (0, initialChunk) :=
  (claim_C6_buffer_and_fetch_safety initialChunk [97] 0 true
      (by decide)).1.2.2 (by decide) (by decide) (by decide)


/-- Counterexample to C7: on a 64 MiB-RAM system the detected tier is
16 KiB, but the fetch buffer `download_html` hands to curl starts with
capacity 0 (`{.data = NULL, .size = 0, .capacity = 0}`), not at the tier;
and the first growth of that buffer targets the 128 KiB
`DEFAULT_MEMORY_PARSER_SIZE` (so a write is rejected when free memory is
131071 bytes, far above the 16384-byte tier). -/
theorem claim_C7_counterexample :
    detectInitialCapacity (64 * 2 ^ 20) = 16384
    ∧ MemoryBlock.capacity initialChunk = 0
    ∧ (0 : Nat) ≠ 16384
    ∧ newCapOf initialChunk (initialChunk.size + [97].length + 1) = 131072
    ∧ memoryWrite initialChunk [97] 131071 true = (0, initialChunk)
    ∧ (131072 : Nat) ≠ 16384 := by
  refine ⟨by decide, rfl, by decide, by decide, ?_, by decide⟩
  apply memoryWrite_reject_freeMem
  · decide
  · decide
  · decide

/-- C7 (amended): `detect_initial_capacity` selects 16 KiB / 64 KiB /
256 KiB for low / mid / high-RAM systems and 128 KiB when detection fails,
but that value only sizes the separate global `parser_buffer`; the fetch
buffer used by `download_html` starts with capacity 0, its first growth
starts from the 128 KiB `DEFAULT_MEMORY_PARSER_SIZE`, and on overflow the
capacity doubles repeatedly until it covers the requested size, clamped to
the 32 MiB hard cap. -/
theorem claim_C7_amended (totalRam fuel cap required : Nat) :
    detectInitialCapacity 0 = DEFAULT_MEMORY_PARSER_SIZE
    ∧ (0 < totalRam → totalRam < 128 * 2 ^ 20 →
        detectInitialCapacity totalRam = LOW_CAPACITY_PARSER_RAM_KB)
    ∧ (128 * 2 ^ 20 ≤ totalRam → totalRam < 512 * 2 ^ 20 →
        detectInitialCapacity totalRam = MID_CAPACITY_PARSER_RAM_KB)
    ∧ (512 * 2 ^ 20 ≤ totalRam →
        detectInitialCapacity totalRam = HIGH_CAPACITY_PARSER_RAM_KB)
    ∧ MemoryBlock.capacity initialChunk = 0
    ∧ startCapOf initialChunk = DEFAULT_MEMORY_PARSER_SIZE
    ∧ (1 ≤ cap → required ≤ MAX_DOWNLOAD_SIZE → required ≤ fuel + cap →
        required ≤ growCapacity fuel cap required)
    ∧ (cap ≤ MAX_DOWNLOAD_SIZE → growCapacity fuel cap required ≤ MAX_DOWNLOAD_SIZE)
    ∧ ((∃ k, growCapacity fuel cap required = cap * 2 ^ k)
        ∨ growCapacity fuel cap required = MAX_DOWNLOAD_SIZE) := by
  refine ⟨rfl, ?_, ?_, ?_, rfl, rfl, ?_, ?_, growCapacity_shape fuel cap required⟩
  · intro h1 h2
    unfold detectInitialCapacity
    rw [if_neg (by omega), if_pos h2]
  · intro h1 h2
    unfold detectInitialCapacity
    rw [if_neg (by omega), if_neg (by omega), if_pos h2]
  · intro h1
    unfold detectInitialCapacity
    rw [if_neg (by omega), if_neg (by omega), if_neg (by omega)]
  · intro h1 h2 h3
    exact growCapacity_ge_req fuel cap required h2 h1 h3
  · intro h1
    exact growCapacity_le_max fuel cap required h1

/-- Witness for the amended C7 at a concrete input: growing from the
128 KiB default covers a 2-byte requirement. -/
theorem claim_C7_amended_witness : (2 : Nat) ≤ growCapacity 2 131072 2 := by
  have h := claim_C7_amended 0 2 131072 2
  exact h.2.2.2.2.2.2.1 (by decide) (by decide) (by decide)
